import Mathlib

/-!
# Verification of MLA archive helpers (`src/mla_archive/src/helpers.rs`)

This file shallowly embeds the two items of `helpers.rs`:

* `linear_extract` — the single-pass demultiplexing extractor, and
* `StreamWriter` — the `Write` adapter over an `ArchiveWriter` and one open
  file id,

and proves the claims of the specification about them.

The block codec (`ArchiveFileBlock::from`) and the `ArchiveWriter` primitives
(`append_file_content`, `flush`) are not part of the given source tree, so
they are modelled from the specification, as marked on each definition.

The archive byte stream is modelled as a list of `StreamElem`: a block header
is one atomic element (its wire encoding is out of scope), and each payload
byte is one element.  Machine bytes are modelled as `Nat` values.
-/

set_option linter.unusedVariables false

namespace MLA

/-- File identifier (`ArchiveFileID`, an opaque unsigned integer). -/
abbrev ArchiveFileID := Nat

/-- The archive error type, as consumed by `linear_extract` and the writer
adapter.  Kinds taken from the specification's error-handling design. -/
inductive Error
  | decodeError
  | truncatedStream
  | lowerLayerError
  | sinkError
deriving DecidableEq, Repr

/-- The four block kinds of `ArchiveFileBlock`.  `FileContent` carries only
the declared length: per the codec contract the payload bytes follow the
header in the stream and are left for the consumer to read. -/
inductive ArchiveFileBlock
  | FileStart (filename : String) (id : ArchiveFileID)
  | FileContent (id : ArchiveFileID) (length : Nat)
  | EndOfFile (id : ArchiveFileID)
  | EndOfArchiveData
deriving DecidableEq, Repr

/-- One element of the physical stream: either an atomic block header or a
single payload byte. -/
inductive StreamElem
  | header (b : ArchiveFileBlock)
  | byte (v : Nat)
deriving DecidableEq, Repr

/-- A caller-supplied sink: the bytes it has accepted so far, and an optional
remaining capacity (`none` = unbounded).  A write that exceeds the remaining
capacity fails with `Error.sinkError`, modelling a fallible `Write`
destination (e.g. storage exhaustion). -/
structure Sink where
  written : List Nat
  capacity : Option Nat
deriving DecidableEq, Repr

/-- Append bytes to a sink; all-or-nothing within one block. -/
def Sink.write (s : Sink) (bs : List Nat) : Except Error Sink :=
  match s.capacity with
  | none => .ok { written := s.written ++ bs, capacity := none }
  | some c =>
    if bs.length ≤ c then
      .ok { written := s.written ++ bs, capacity := some (c - bs.length) }
    else
      .error .sinkError

/-- The caller's export map (`HashMap<&String, W1>`): filename → sink.
Modelled as an association list; lookups and updates use the first matching
key, and the extractor never inserts or removes entries, so duplicate keys
behave consistently. -/
abbrev ExportMap := List (String × Sink)

/-- `HashMap::contains_key` on the export map. -/
def ExportMap.containsKey : ExportMap → String → Bool
  | [], _ => false
  | (g, _) :: rest, f => g == f || ExportMap.containsKey rest f

/-- `HashMap::get_mut` on the export map (lookup part). -/
def ExportMap.getSink : ExportMap → String → Option Sink
  | [], _ => none
  | (g, s) :: rest, f => if g == f then some s else ExportMap.getSink rest f

/-- Writing back through `HashMap::get_mut`: replace the first entry keyed
`f` by the updated sink. -/
def ExportMap.updateSink : ExportMap → String → Sink → ExportMap
  | [], _, _ => []
  | (g, t) :: rest, f, s =>
    if g == f then (g, s) :: rest else (g, t) :: ExportMap.updateSink rest f s

/-- The extractor's transient id→filename registry
(`HashMap<ArchiveFileID, String>`), as an association list with
`HashMap` semantics (insert replaces, remove deletes the key). -/
abbrev Registry := List (ArchiveFileID × String)

/-- `HashMap::get` on the registry. -/
def Registry.find : Registry → ArchiveFileID → Option String
  | [], _ => none
  | (j, g) :: rest, i => if j == i then some g else Registry.find rest i

/-- `HashMap::remove` on the registry. -/
def Registry.remove : Registry → ArchiveFileID → Registry
  | [], _ => []
  | (j, g) :: rest, i =>
    if j == i then Registry.remove rest i else (j, g) :: Registry.remove rest i

/-- `HashMap::insert` on the registry. -/
def Registry.insert (reg : Registry) (i : ArchiveFileID) (f : String) : Registry :=
  (i, f) :: Registry.remove reg i

/-- An observable operation on the seekable source: a repositioning, or a
forward read of some number of stream elements. -/
inductive SourceOp
  | seek (target : Nat)
  | read (n : Nat)
deriving DecidableEq, Repr

/-- Is this source operation a read (never repositioning)? -/
def SourceOp.isRead : SourceOp → Bool
  | .read _ => true
  | .seek _ => false

/-- `Read::take(n)` followed by `io::copy`: split off up to `n` leading
payload bytes of the stream.  Returns the byte values taken and the rest of
the stream. -/
def payloadSplit : Nat → List StreamElem → List Nat × List StreamElem
  | 0, l => ([], l)
  | _ + 1, [] => ([], [])
  | n + 1, .byte v :: rest =>
    let p := payloadSplit n rest
    (v :: p.1, p.2)
  | _ + 1, .header b :: rest => ([], .header b :: rest)

/-- The result of a run of the extractor loop: the outcome, the final export
map (the caller keeps it across an error: no rollback), the final registry,
and the trace of source operations performed. -/
abbrev ExtractResult := Except Error Unit × ExportMap × Registry × List SourceOp

/-- Prepend source operations to a result's trace. -/
def addOps (pre : List SourceOp) (r : ExtractResult) : ExtractResult :=
  (r.1, r.2.1, r.2.2.1, pre ++ r.2.2.2)

/-- The `'read_block` loop of `linear_extract`, one iteration per decoded
block.  Decoding a block reads one header element (`SourceOp.read 1`);
hitting the end of input is the codec's `TruncatedStream` error, and a raw
byte where a header is expected is a `DecodeError` (unknown discriminant).
The `FileContent` arm takes the payload with `payloadSplit` and either copies
it into the matching sink or exhausts it to a no-op sink. -/
def linearExtractGo : List StreamElem → Registry → ExportMap → ExtractResult
  | [], reg, ex => (.error .truncatedStream, ex, reg, [])
  | .byte _ :: _, reg, ex => (.error .decodeError, ex, reg, [.read 1])
  | .header (.FileStart filename id) :: rest, reg, ex =>
    -- If the starting file is meant to be extracted, record id → filename
    if ExportMap.containsKey ex filename then
      addOps [.read 1] (linearExtractGo rest (Registry.insert reg id filename) ex)
    else
      addOps [.read 1] (linearExtractGo rest reg ex)
  | .header (.EndOfFile id) :: rest, reg, ex =>
    -- Drop the corresponding writer
    addOps [.read 1] (linearExtractGo rest (Registry.remove reg id) ex)
  | .header (.FileContent id length) :: rest, reg, ex =>
    -- Write a block to the corresponding output, if any
    match Registry.find reg id with
    | some fname =>
      match ExportMap.getSink ex fname with
      | some sink =>
        match sink.write (payloadSplit length rest).1 with
        | .ok sink' =>
          addOps [.read 1, .read (payloadSplit length rest).1.length]
            (linearExtractGo (payloadSplit length rest).2 reg
              (ExportMap.updateSink ex fname sink'))
        | .error e =>
          (.error e, ex, reg, [.read 1, .read (payloadSplit length rest).1.length])
      | none =>
        -- `extracted` stays false: exhaust the block to Sink
        addOps [.read 1, .read (payloadSplit length rest).1.length]
          (linearExtractGo (payloadSplit length rest).2 reg ex)
    | none =>
      -- Exhaust the block to Sink to forward the reader
      addOps [.read 1, .read (payloadSplit length rest).1.length]
        (linearExtractGo (payloadSplit length rest).2 reg ex)
  | .header .EndOfArchiveData :: _, reg, ex =>
    -- Proper termination
    (.ok (), ex, reg, [.read 1])
termination_by src _ _ => src.length
decreasing_by
  all_goals simp_wf
  all_goals
    first
    | omega
    | (have hps : ∀ (n : Nat) (l : List StreamElem),
          (payloadSplit n l).2.length ≤ l.length := by
        intro n
        induction n with
        | zero => intro l; simp [payloadSplit]
        | succ n ih =>
          intro l
          cases l with
          | nil => simp [payloadSplit]
          | cons e tl =>
            cases e with
            | byte v =>
              simp only [payloadSplit]
              exact Nat.le_succ_of_le (ih tl)
            | header b => simp [payloadSplit]
       have h := hps length rest
       omega)

/-- `linear_extract`: seek the source to its start (the only seek of the
whole call), then run the block loop with an empty registry. -/
def linear_extract (src : List StreamElem) (export? : ExportMap) : ExtractResult :=
  addOps [.seek 0] (linearExtractGo src [] export?)

/-!
## Writer side

`ArchiveWriter` itself is not part of the given source tree; its observable
state and the primitives the adapter drives are modelled from the
specification's archive-writer contract.
-/

/-- Modelled from the spec: the archive-writer abstraction.  Its observable
state is the block stream written so far, the set of currently open file
ids, and a counter of flushes reaching the physical sink. -/
structure ArchiveWriter where
  blocks : List StreamElem
  openIds : List ArchiveFileID
  flushCount : Nat
deriving DecidableEq, Repr

/-- Modelled from the spec: `append-content(id, length, bytes) → Result`.
All-or-nothing: on success exactly one `FileContent` block with the declared
`length` followed by the payload bytes is appended; on failure (the id is not
an open file of this writer) nothing is appended. -/
def ArchiveWriter.append_file_content (a : ArchiveWriter) (id : ArchiveFileID)
    (length : Nat) (bytes : List Nat) : Except Error ArchiveWriter :=
  if a.openIds.contains id then
    .ok { a with
          blocks := a.blocks ++ .header (.FileContent id length) :: bytes.map .byte }
  else
    .error .lowerLayerError

/-- Modelled from the spec: `flush() → Result`, ensuring buffered bytes reach
the physical sink; it does not touch the block stream or the open files. -/
def ArchiveWriter.flush (a : ArchiveWriter) : Except Error Unit × ArchiveWriter :=
  (.ok (), { a with flushCount := a.flushCount + 1 })

/-- `StreamWriter`: a `Write` interface over an `ArchiveWriter` file.  The
mutable borrow of the archive becomes explicit state passing. -/
structure StreamWriter where
  archive : ArchiveWriter
  file_id : ArchiveFileID
deriving DecidableEq, Repr

/-- `StreamWriter::write`: append the whole buffer as one content block with
declared length `buf.len()`, and return `Ok(buf.len())`.  The `?` on the
append returns the error with the archive unchanged (the append primitive is
all-or-nothing). -/
def StreamWriter.write (sw : StreamWriter) (buf : List Nat) :
    Except Error Nat × StreamWriter :=
  match sw.archive.append_file_content sw.file_id buf.length buf with
  | .ok a' => (.ok buf.length, { sw with archive := a' })
  | .error e => (.error e, sw)

/-- `StreamWriter::flush`: delegate to the archive's own flush. -/
def StreamWriter.flush (sw : StreamWriter) : Except Error Unit × StreamWriter :=
  let r := sw.archive.flush
  (r.1, { sw with archive := r.2 })

/-!
## Well-formed archives

To state round-trip claims we describe an archive by the sequence of writer
actions that produced it: starting a file, appending one content chunk,
closing a file, and finalizing.  `render` turns the actions into the block
stream (each content chunk becomes one `FileContent` block, exactly as the
adapter writes it).  Interleaving is arbitrary: any well-formed action
sequence may alternate chunks of different open files freely.
-/

/-- One writer action. -/
inductive WAction
  | start (filename : String) (id : ArchiveFileID)
  | content (id : ArchiveFileID) (bytes : List Nat)
  | close (id : ArchiveFileID)
  | finish
deriving DecidableEq, Repr

/-- The block stream produced by a sequence of writer actions. -/
def render : List WAction → List StreamElem
  | [] => []
  | .start f i :: rest => .header (.FileStart f i) :: render rest
  | .content i bs :: rest =>
    .header (.FileContent i bs.length) :: (bs.map .byte ++ render rest)
  | .close i :: rest => .header (.EndOfFile i) :: render rest
  | .finish :: rest => .header .EndOfArchiveData :: render rest

/-- The block-sequence invariant, checked over writer actions: every content
chunk and every close refers to a currently open id, ids are never reused,
and the sequence ends with exactly one `finish` once every file is closed.
`used` holds every id ever started, `opened` the currently open ids with
their filenames (same association-list shape as the registry). -/
def wfFrom (used : List ArchiveFileID) (opened : Registry) :
    List WAction → Bool
  | [] => false
  | .finish :: rest => opened.isEmpty && rest.isEmpty
  | .start f i :: rest => !(used.contains i) && wfFrom (i :: used) ((i, f) :: opened) rest
  | .content i _ :: rest => (Registry.find opened i).isSome && wfFrom used opened rest
  | .close i :: rest =>
    (Registry.find opened i).isSome && wfFrom used (Registry.remove opened i) rest

/-- A complete well-formed archive write. -/
def wfActions (acts : List WAction) : Bool := wfFrom [] [] acts

/-- The bytes written under filename `f`: the concatenation, in write order,
of every content chunk whose id is (at that point) a file named `f`.
`opened` carries the files already open before the remaining actions. -/
def delivered (opened : Registry) (f : String) :
    List WAction → List Nat
  | [] => []
  | .start g i :: rest => delivered ((i, g) :: opened) f rest
  | .content i bs :: rest =>
    (if Registry.find opened i = some f then bs else []) ++ delivered opened f rest
  | .close i :: rest => delivered (Registry.remove opened i) f rest
  | .finish :: _ => []

/-- The full content of the file(s) named `f` in a complete archive. -/
def writtenContent (acts : List WAction) (f : String) : List Nat :=
  delivered [] f acts

/-- Is id `i` an open file after the given stream elements, starting from
openness `cur`?  A `FileStart` for `i` opens it, an `EndOfFile` for `i`
closes it; everything else is irrelevant. -/
def openGiven (cur : Bool) : List StreamElem → ArchiveFileID → Bool
  | [], _ => cur
  | .header (.FileStart _ j) :: rest, i =>
    openGiven (if j == i then true else cur) rest i
  | .header (.EndOfFile j) :: rest, i =>
    openGiven (if j == i then false else cur) rest i
  | _ :: rest, i => openGiven cur rest i

/-- Is id `i` open after the stream prefix `src`? -/
def openAfter (src : List StreamElem) (i : ArchiveFileID) : Bool :=
  openGiven false src i

/-- The outcome of an extraction run. -/
def outcomeOf (r : ExtractResult) : Except Error Unit := r.1

/-- The export map after an extraction run. -/
def exportOf (r : ExtractResult) : ExportMap := r.2.1

/-- The registry after an extraction run. -/
def registryOf (r : ExtractResult) : Registry := r.2.2.1

/-- The source-operation trace of an extraction run. -/
def opsOf (r : ExtractResult) : List SourceOp := r.2.2.2

/-- The filenames of the files started in an archive. -/
def archiveFilenames : List WAction → List String
  | [] => []
  | .start f _ :: rest => f :: archiveFilenames rest
  | .content _ _ :: rest => archiveFilenames rest
  | .close _ :: rest => archiveFilenames rest
  | .finish :: rest => archiveFilenames rest

/-- The disposition of one content block's payload, as the specification
describes it: if the block's id is in the registry and its filename is a key
of the export map, the bytes are appended verbatim to that sink; otherwise
the export map is untouched. -/
def deliverBlock (reg : Registry) (ex : ExportMap) (id : ArchiveFileID)
    (payload : List Nat) : ExportMap :=
  match Registry.find reg id with
  | some fname =>
    match ExportMap.getSink ex fname with
    | some s =>
      ExportMap.updateSink ex fname
        { written := s.written ++ payload, capacity := s.capacity }
    | none => ex
  | none => ex

/-- No `finish` action: the rendered stream has no terminal sentinel. -/
def noFinish (acts : List WAction) : Bool :=
  acts.all (fun a => match a with | .finish => false | _ => true)

/-!
## Concrete witness inputs
-/

/-- A two-file archive whose content blocks interleave. -/
def wActsA : List WAction :=
  [.start "f1" 1, .start "f2" 2, .content 1 [1, 2], .content 2 [10, 20],
   .content 1 [3], .close 1, .close 2, .finish]

/-- An export map requesting both files of `wActsA`. -/
def exMapFull : ExportMap :=
  [("f1", { written := [], capacity := none }),
   ("f2", { written := [], capacity := none })]

/-- A three-file archive with interleaved content blocks. -/
def wActsB : List WAction :=
  [.start "f1" 1, .start "f2" 2, .start "f3" 3, .content 2 [9], .content 1 [1, 2],
   .content 3 [7], .close 3, .content 2 [8], .close 2, .close 1, .finish]

/-- An export map requesting a strict subset of `wActsB`'s files plus a
filename absent from the archive. -/
def exMapSub : ExportMap :=
  [("f1", { written := [], capacity := none }),
   ("ghost", { written := [], capacity := none })]

/-- An unterminated archive prefix: one file opened, one 1-byte chunk. -/
def wActsC : List WAction := [.start "a" 1, .content 1 [5]]

/-- An export map whose sink has only one byte of remaining capacity. -/
def exMapCap : ExportMap := [("a", { written := [], capacity := some 1 })]

/-- An export map with one unbounded empty sink. -/
def exMapA : ExportMap := [("a", { written := [], capacity := none })]

/-- A writer adapter over an archive with file id 7 open. -/
def swEx : StreamWriter :=
  { archive := { blocks := [], openIds := [7], flushCount := 0 }, file_id := 7 }

/-!
## Lemmas
-/

theorem payloadSplit_snd_length_le (n : Nat) (l : List StreamElem) :
    (payloadSplit n l).2.length ≤ l.length := by
  induction n generalizing l with
  | zero => simp [payloadSplit]
  | succ n ih =>
    cases l with
    | nil => simp [payloadSplit]
    | cons e rest =>
      cases e with
      | byte v =>
        simp only [payloadSplit]
        exact Nat.le_succ_of_le (ih rest)
      | header b => simp [payloadSplit]


/-!
## Map and stream lemmas
-/

theorem Registry.find_nil (i : ArchiveFileID) : Registry.find [] i = none := rfl

theorem Registry.find_remove_self (reg : Registry) (i : ArchiveFileID) :
    Registry.find (Registry.remove reg i) i = none := by
  induction reg with
  | nil => rfl
  | cons p rest ih =>
    obtain ⟨j, g⟩ := p
    by_cases h : j = i <;> simp_all [Registry.find, Registry.remove]

theorem Registry.find_remove_ne (reg : Registry) (i j : ArchiveFileID)
    (h : j ≠ i) : Registry.find (Registry.remove reg i) j = Registry.find reg j := by
  induction reg with
  | nil => rfl
  | cons p rest ih =>
    obtain ⟨k, g⟩ := p
    by_cases h1 : k = i
    · subst h1
      have h2 : ¬(k = j) := fun hh => h (by rw [hh])
      simp_all [Registry.find, Registry.remove]
    · by_cases h2 : k = j <;> simp_all [Registry.find, Registry.remove]

theorem Registry.find_insert_self (reg : Registry) (i : ArchiveFileID) (f : String) :
    Registry.find (Registry.insert reg i f) i = some f := by
  simp [Registry.find, Registry.insert]

theorem Registry.find_insert_ne (reg : Registry) (i j : ArchiveFileID) (f : String)
    (h : j ≠ i) :
    Registry.find (Registry.insert reg i f) j = Registry.find reg j := by
  have h1 : ¬(i = j) := fun hh => h hh.symm
  simp [Registry.find, Registry.insert, h1, Registry.find_remove_ne reg i j h]

theorem Registry.remove_of_find_none (reg : Registry) (i : ArchiveFileID)
    (h : Registry.find reg i = none) : Registry.remove reg i = reg := by
  induction reg with
  | nil => rfl
  | cons p rest ih =>
    obtain ⟨j, g⟩ := p
    by_cases h1 : j = i <;> simp_all [Registry.find, Registry.remove]

theorem ExportMap.containsKey_updateSink (ex : ExportMap) (f g : String) (s : Sink) :
    ExportMap.containsKey (ExportMap.updateSink ex f s) g = ExportMap.containsKey ex g := by
  induction ex with
  | nil => rfl
  | cons p rest ih =>
    obtain ⟨p1, p2⟩ := p
    by_cases h : p1 = f <;> simp_all [ExportMap.containsKey, ExportMap.updateSink]

theorem ExportMap.getSink_updateSink_self (ex : ExportMap) (f : String) (s t : Sink)
    (h : ExportMap.getSink ex f = some t) :
    ExportMap.getSink (ExportMap.updateSink ex f s) f = some s := by
  induction ex with
  | nil => simp [ExportMap.getSink] at h
  | cons p rest ih =>
    obtain ⟨p1, p2⟩ := p
    by_cases h1 : p1 = f <;>
      simp_all [ExportMap.getSink, ExportMap.updateSink]

theorem ExportMap.getSink_updateSink_ne (ex : ExportMap) (f g : String) (s : Sink)
    (h : g ≠ f) :
    ExportMap.getSink (ExportMap.updateSink ex f s) g = ExportMap.getSink ex g := by
  induction ex with
  | nil => rfl
  | cons p rest ih =>
    obtain ⟨p1, p2⟩ := p
    by_cases h1 : p1 = f
    · subst h1
      have h2 : ¬(p1 = g) := fun hh => h (by rw [hh])
      simp_all [ExportMap.getSink, ExportMap.updateSink]
    · by_cases h2 : p1 = g <;>
        simp_all [ExportMap.getSink, ExportMap.updateSink]

theorem ExportMap.containsKey_iff_isSome (ex : ExportMap) (f : String) :
    ExportMap.containsKey ex f = (ExportMap.getSink ex f).isSome := by
  induction ex with
  | nil => rfl
  | cons p rest ih =>
    obtain ⟨p1, p2⟩ := p
    by_cases h : p1 = f <;>
      simp_all [ExportMap.containsKey, ExportMap.getSink]

theorem payloadSplit_map_byte (bs : List Nat) (tail : List StreamElem) :
    payloadSplit bs.length (bs.map .byte ++ tail) = (bs, tail) := by
  induction bs with
  | nil => simp [payloadSplit]
  | cons b rest ih => simp [payloadSplit, ih]

theorem payloadSplit_append_eq (n : Nat) (l : List StreamElem) :
    (payloadSplit n l).1.map StreamElem.byte ++ (payloadSplit n l).2 = l := by
  induction n generalizing l with
  | zero => simp [payloadSplit]
  | succ n ih =>
    cases l with
    | nil => simp [payloadSplit]
    | cons e rest =>
      cases e with
      | byte v => simp [payloadSplit, ih rest]
      | header b => simp [payloadSplit]

theorem openGiven_mono (l : List StreamElem) (i : ArchiveFileID) (b b' : Bool)
    (hb : b = true → b' = true) (h : openGiven b l i = true) :
    openGiven b' l i = true := by
  induction l generalizing b b' with
  | nil => simp_all [openGiven]
  | cons e rest ih =>
    cases e with
    | byte v => exact ih b b' hb (by simpa [openGiven] using h)
    | header blk =>
      cases blk with
      | FileStart f j =>
        rw [openGiven] at h ⊢
        refine ih _ _ ?_ h
        by_cases hj : (j == i) = true <;> simp_all
      | EndOfFile j =>
        rw [openGiven] at h ⊢
        refine ih _ _ ?_ h
        by_cases hj : (j == i) = true <;> simp_all
      | FileContent j len => exact ih b b' hb (by simpa [openGiven] using h)
      | EndOfArchiveData => exact ih b b' hb (by simpa [openGiven] using h)

theorem openGiven_append_bytes (bs : List Nat) (l : List StreamElem)
    (i : ArchiveFileID) (b : Bool) :
    openGiven b (bs.map .byte ++ l) i = openGiven b l i := by
  induction bs with
  | nil => rfl
  | cons v rest ih => simp [openGiven, ih]

theorem openGiven_contentHeader (b : Bool) (id : ArchiveFileID) (length : Nat)
    (rest : List StreamElem) (i : ArchiveFileID) :
    openGiven b (.header (.FileContent id length) :: rest) i = openGiven b rest i := rfl

theorem Registry.find_some_mem (reg : Registry) (i : ArchiveFileID) (f : String)
    (h : Registry.find reg i = some f) : (i, f) ∈ reg := by
  induction reg with
  | nil => simp [Registry.find] at h
  | cons p rest ih =>
    obtain ⟨j, g⟩ := p
    by_cases h1 : j = i <;> simp_all [Registry.find]

theorem Registry.mem_remove (reg : Registry) (i : ArchiveFileID)
    (p : ArchiveFileID × String) (h : p ∈ Registry.remove reg i) : p ∈ reg := by
  induction reg with
  | nil => simp [Registry.remove] at h
  | cons q rest ih =>
    obtain ⟨j, g⟩ := q
    by_cases h1 : j = i
    · subst h1
      rw [Registry.remove, if_pos (by simp)] at h
      exact List.mem_cons_of_mem _ (ih h)
    · rw [Registry.remove, if_neg (by simp [h1])] at h
      rcases List.mem_cons.mp h with h2 | h2
      · exact h2 ▸ List.mem_cons_self _ _
      · exact List.mem_cons_of_mem _ (ih h2)

theorem ExportMap.getSink_mem (ex : ExportMap) (f : String) (s : Sink)
    (h : ExportMap.getSink ex f = some s) : ∃ g, (g, s) ∈ ex := by
  induction ex with
  | nil => simp [ExportMap.getSink] at h
  | cons p rest ih =>
    obtain ⟨p1, p2⟩ := p
    rw [ExportMap.getSink] at h
    split at h
    · exact ⟨p1, by simp [(Option.some_inj.mp h).symm]⟩
    · obtain ⟨g, hg⟩ := ih h
      exact ⟨g, List.mem_cons_of_mem _ hg⟩

/-!
## Result projections and extractor step equations
-/

theorem outcomeOf_addOps (pre : List SourceOp) (r : ExtractResult) :
    outcomeOf (addOps pre r) = outcomeOf r := rfl

theorem exportOf_addOps (pre : List SourceOp) (r : ExtractResult) :
    exportOf (addOps pre r) = exportOf r := rfl

theorem registryOf_addOps (pre : List SourceOp) (r : ExtractResult) :
    registryOf (addOps pre r) = registryOf r := rfl

theorem opsOf_addOps (pre : List SourceOp) (r : ExtractResult) :
    opsOf (addOps pre r) = pre ++ opsOf r := rfl

theorem go_nil (reg : Registry) (ex : ExportMap) :
    linearExtractGo [] reg ex = (.error .truncatedStream, ex, reg, []) := by
  rw [linearExtractGo]

theorem go_byte (v : Nat) (rest : List StreamElem) (reg : Registry) (ex : ExportMap) :
    linearExtractGo (.byte v :: rest) reg ex = (.error .decodeError, ex, reg, [.read 1]) := by
  rw [linearExtractGo]

theorem go_fileStart (f : String) (id : ArchiveFileID) (rest : List StreamElem)
    (reg : Registry) (ex : ExportMap) :
    linearExtractGo (.header (.FileStart f id) :: rest) reg ex =
      addOps [.read 1]
        (linearExtractGo rest
          (if ExportMap.containsKey ex f then Registry.insert reg id f else reg) ex) := by
  rw [linearExtractGo]
  split <;> rfl

theorem go_endOfFile (id : ArchiveFileID) (rest : List StreamElem)
    (reg : Registry) (ex : ExportMap) :
    linearExtractGo (.header (.EndOfFile id) :: rest) reg ex =
      addOps [.read 1] (linearExtractGo rest (Registry.remove reg id) ex) := by
  rw [linearExtractGo]

theorem go_endOfArchive (rest : List StreamElem) (reg : Registry) (ex : ExportMap) :
    linearExtractGo (.header .EndOfArchiveData :: rest) reg ex =
      (.ok (), ex, reg, [.read 1]) := by
  rw [linearExtractGo]

/-- Step equation for a `FileContent` block whose payload is fully present:
the loop consumes exactly the `length` payload bytes and resumes at `tail`,
the position of the next block. -/
theorem go_fileContent (id : ArchiveFileID) (payload : List Nat)
    (tail : List StreamElem) (reg : Registry) (ex : ExportMap) :
    linearExtractGo
        (.header (.FileContent id payload.length) :: (payload.map .byte ++ tail))
        reg ex =
      match Registry.find reg id with
      | some fname =>
        match ExportMap.getSink ex fname with
        | some sink =>
          match sink.write payload with
          | .ok sink' =>
            addOps [.read 1, .read payload.length]
              (linearExtractGo tail reg (ExportMap.updateSink ex fname sink'))
          | .error e => (.error e, ex, reg, [.read 1, .read payload.length])
        | none => addOps [.read 1, .read payload.length] (linearExtractGo tail reg ex)
      | none => addOps [.read 1, .read payload.length] (linearExtractGo tail reg ex) := by
  rw [linearExtractGo]
  simp only [payloadSplit_map_byte]

/-!
## Round-trip simulation

The main lemma: running the extractor loop over a rendered, well-formed
action suffix, from a registry that agrees with the open files restricted to
the export map's keys, succeeds and appends to each sink exactly the bytes
delivered to its filename.
-/

theorem go_render_ok (acts : List WAction) :
    ∀ (used : List ArchiveFileID) (opened : Registry) (reg : Registry) (ex : ExportMap),
    wfFrom used opened acts = true →
    (∀ p ∈ opened, p.1 ∈ used) →
    (∀ i, Registry.find reg i =
      match Registry.find opened i with
      | some f => if ExportMap.containsKey ex f then some f else none
      | none => none) →
    (∀ f s, ExportMap.getSink ex f = some s → s.capacity = none) →
    outcomeOf (linearExtractGo (render acts) reg ex) = .ok () ∧
    ∀ f, ExportMap.getSink (exportOf (linearExtractGo (render acts) reg ex)) f =
      (ExportMap.getSink ex f).map
        (fun s => { written := s.written ++ delivered opened f acts,
                    capacity := s.capacity }) := by
  induction acts with
  | nil => intro used opened reg ex hwf _ _ _; simp [wfFrom] at hwf
  | cons a rest ih =>
    intro used opened reg ex hwf hsub hreg hcap
    cases a with
    | finish =>
      rw [wfFrom] at hwf
      simp only [Bool.and_eq_true, List.isEmpty_iff] at hwf
      obtain ⟨hop, hrest⟩ := hwf
      refine ⟨by simp [render, go_endOfArchive, outcomeOf], fun f => ?_⟩
      simp only [render, go_endOfArchive, exportOf, delivered]
      cases hs : ExportMap.getSink ex f with
      | none => rfl
      | some s => simp
    | start g i =>
      rw [wfFrom] at hwf
      simp only [Bool.and_eq_true, Bool.not_eq_true'] at hwf
      obtain ⟨hfresh, hwf⟩ := hwf
      have hni : i ∉ used := by simpa using hfresh
      have hnotopen : Registry.find opened i = none := by
        cases hfind : Registry.find opened i with
        | none => rfl
        | some f0 =>
          exact absurd (hsub _ (Registry.find_some_mem opened i f0 hfind)) hni
      simp only [render, go_fileStart, outcomeOf_addOps, exportOf_addOps]
      have hstep := ih (i :: used) ((i, g) :: opened)
        (if ExportMap.containsKey ex g then Registry.insert reg i g else reg) ex hwf
        (by
          intro p hp
          rcases List.mem_cons.mp hp with h | h
          · subst h; exact List.mem_cons_self _ _
          · exact List.mem_cons_of_mem _ (hsub p h))
        (by
          intro j
          by_cases hj : i = j
          · subst hj
            rw [Registry.find]
            simp only [beq_self_eq_true, if_true]
            by_cases hc : ExportMap.containsKey ex g
            · simp [hc, Registry.find_insert_self]
            · have h0 := hreg i
              rw [hnotopen] at h0
              simp only [hc, Bool.false_eq_true, if_false]
              simpa [hc] using h0
          · rw [Registry.find]
            simp only [show (i == j) = false by simp [hj], Bool.false_eq_true, if_false]
            by_cases hc : ExportMap.containsKey ex g
            · simp only [hc, if_true]
              rw [Registry.find_insert_ne reg i j g (fun hh => hj hh.symm)]
              exact hreg j
            · simp only [hc, Bool.false_eq_true, if_false]
              exact hreg j)
        hcap
      simp only [delivered]
      exact hstep
    | close i =>
      rw [wfFrom] at hwf
      simp only [Bool.and_eq_true] at hwf
      obtain ⟨hopen, hwf⟩ := hwf
      simp only [render, go_endOfFile, outcomeOf_addOps, exportOf_addOps]
      have hstep := ih used (Registry.remove opened i) (Registry.remove reg i) ex hwf
        (fun p hp => hsub p (Registry.mem_remove opened i p hp))
        (by
          intro j
          by_cases hj : j = i
          · subst hj
            rw [Registry.find_remove_self, Registry.find_remove_self]
          · rw [Registry.find_remove_ne reg i j hj, Registry.find_remove_ne opened i j hj]
            exact hreg j)
        hcap
      simp only [delivered]
      exact hstep
    | content i bs =>
      rw [wfFrom] at hwf
      simp only [Bool.and_eq_true, Option.isSome_iff_exists] at hwf
      obtain ⟨⟨f0, hf0⟩, hwf⟩ := hwf
      simp only [render]
      rw [go_fileContent i bs (render rest) reg ex]
      by_cases hc : ExportMap.containsKey ex f0
      · -- requested: copied into the sink
        have hregi : Registry.find reg i = some f0 := by
          have h0 := hreg i
          rw [hf0] at h0
          simpa [hc] using h0
        have hsome : (ExportMap.getSink ex f0).isSome := by
          rw [← ExportMap.containsKey_iff_isSome]; exact hc
        obtain ⟨s, hs⟩ := Option.isSome_iff_exists.mp hsome
        have hcapn := hcap f0 s hs
        have hwrite : s.write bs = .ok { written := s.written ++ bs, capacity := none } := by
          simp [Sink.write, hcapn]
        simp only [hregi, hs, hwrite, outcomeOf_addOps, exportOf_addOps]
        have hstep := ih used opened reg
          (ExportMap.updateSink ex f0 { written := s.written ++ bs, capacity := none }) hwf
          hsub
          (by
            intro j
            have h0 := hreg j
            cases hfind : Registry.find opened j with
            | none => rw [hfind] at h0; simpa using h0
            | some f1 =>
              rw [hfind] at h0
              simp only [ExportMap.containsKey_updateSink]
              exact h0)
          (by
            intro f s' hs'
            by_cases hf : f = f0
            · subst hf
              rw [ExportMap.getSink_updateSink_self ex f
                    { written := s.written ++ bs, capacity := none } s hs] at hs'
              simp only [Option.some_inj] at hs'
              rw [← hs']
            · rw [ExportMap.getSink_updateSink_ne ex f0 f _ hf] at hs'
              exact hcap f s' hs')
        refine ⟨hstep.1, fun f => ?_⟩
        rw [hstep.2 f]
        by_cases hf : f = f0
        · subst hf
          rw [ExportMap.getSink_updateSink_self ex f
                { written := s.written ++ bs, capacity := none } s hs, hs]
          simp only [delivered, hf0]
          simp [hcapn]
        · rw [ExportMap.getSink_updateSink_ne ex f0 f _ hf]
          simp only [delivered]
          have hne : ¬(Registry.find opened i = some f) := by
            rw [hf0]
            intro hcon
            exact hf (Option.some_inj.mp hcon).symm
          simp only [hne, if_false, List.nil_append]
      · -- not requested: discarded
        have hregi : Registry.find reg i = none := by
          have h0 := hreg i
          rw [hf0] at h0
          simpa [hc] using h0
        simp only [hregi, outcomeOf_addOps, exportOf_addOps]
        have hstep := ih used opened reg ex hwf hsub hreg hcap
        refine ⟨hstep.1, fun f => ?_⟩
        rw [hstep.2 f]
        simp only [delivered]
        by_cases hf : Registry.find opened i = some f
        · -- its filename is not an export key: the sink does not exist
          have hff : f = f0 := by rw [hf0] at hf; exact (Option.some_inj.mp hf).symm
          subst hff
          have hnone : ExportMap.getSink ex f = none := by
            cases hgs : ExportMap.getSink ex f with
            | none => rfl
            | some s =>
              exfalso
              have : ExportMap.containsKey ex f = true := by
                rw [ExportMap.containsKey_iff_isSome, hgs]; rfl
              exact hc this
          rw [hnone]
          rfl
        · simp only [hf, if_false, List.nil_append]

/-- If `f` is never started in `acts` and is not an open file, nothing is
delivered to it. -/
theorem delivered_eq_nil_of_not_started (acts : List WAction) :
    ∀ (opened : Registry) (f : String),
    f ∉ archiveFilenames acts →
    (∀ p ∈ opened, p.2 ≠ f) →
    delivered opened f acts = [] := by
  induction acts with
  | nil => intro opened f _ _; rfl
  | cons a rest ih =>
    intro opened f hnf hop
    cases a with
    | start g i =>
      rw [archiveFilenames] at hnf
      simp only [List.mem_cons, not_or] at hnf
      obtain ⟨hfg, hnf'⟩ := hnf
      rw [delivered]
      refine ih ((i, g) :: opened) f hnf' ?_
      intro p hp
      rcases List.mem_cons.mp hp with h | h
      · rw [h]; intro hh; exact hfg hh.symm
      · exact hop p h
    | content i bs =>
      rw [archiveFilenames] at hnf
      rw [delivered]
      have hne : ¬(Registry.find opened i = some f) := by
        intro hcon
        exact hop _ (Registry.find_some_mem opened i f hcon) rfl
      simp only [hne, if_false, List.nil_append]
      exact ih opened f hnf hop
    | close i =>
      rw [archiveFilenames] at hnf
      rw [delivered]
      exact ih _ f hnf (fun p hp => hop p (Registry.mem_remove opened i p hp))
    | finish => rfl

/-!
## The claims
-/

/-- C1 — For every archive containing files F1..Fn with contents C1..Cn,
running `linear_extract` with an export map containing every filename
terminates with `Ok` and leaves each filename's sink byte-for-byte equal to
that file's original content, regardless of how the files' content blocks
were interleaved in the stream. -/
theorem c1_full_export_roundtrip (acts : List WAction) (ex : ExportMap)
    (hwf : wfActions acts = true)
    (hsinks : ∀ p ∈ ex, p.2 = Sink.mk [] none)
    (hcover : ∀ f ∈ archiveFilenames acts, ExportMap.containsKey ex f = true) :
    outcomeOf (linear_extract (render acts) ex) = .ok () ∧
    ∀ f, ExportMap.containsKey ex f = true →
      ExportMap.getSink (exportOf (linear_extract (render acts) ex)) f =
        some { written := writtenContent acts f, capacity := none } := by
  have hcap : ∀ f s, ExportMap.getSink ex f = some s → s.capacity = none := by
    intro f s hs
    obtain ⟨g, hg⟩ := ExportMap.getSink_mem ex f s hs
    rw [show s = (g, s).2 from rfl, hsinks (g, s) hg]
  have h := go_render_ok acts [] [] [] ex hwf (by intro p hp; simp at hp)
    (fun i => rfl) hcap
  rw [linear_extract]
  refine ⟨by rw [outcomeOf_addOps]; exact h.1, fun f hf => ?_⟩
  rw [exportOf_addOps, h.2 f]
  have hsome : (ExportMap.getSink ex f).isSome := by
    rw [← ExportMap.containsKey_iff_isSome]; exact hf
  obtain ⟨s, hs⟩ := Option.isSome_iff_exists.mp hsome
  obtain ⟨g, hg⟩ := ExportMap.getSink_mem ex f s hs
  have hsev : s = Sink.mk [] none := by
    rw [show s = (g, s).2 from rfl, hsinks (g, s) hg]
  rw [hs, hsev]
  simp [writtenContent]

/-- C2 — For every archive and export map (in particular one whose keys are a
strict, non-empty subset of the archived filenames), `linear_extract` yields
correct, complete content for exactly the requested filenames; unrequested
files are consumed without affecting output, and a requested filename absent
from the archive leaves its sink untouched (empty). -/
theorem c2_subset_export (acts : List WAction) (ex : ExportMap)
    (hwf : wfActions acts = true)
    (hsinks : ∀ p ∈ ex, p.2 = Sink.mk [] none) :
    outcomeOf (linear_extract (render acts) ex) = .ok () ∧
    (∀ f, ExportMap.containsKey ex f = true →
      ExportMap.getSink (exportOf (linear_extract (render acts) ex)) f =
        some { written := writtenContent acts f, capacity := none }) ∧
    (∀ f, ExportMap.containsKey ex f = true → f ∉ archiveFilenames acts →
      ExportMap.getSink (exportOf (linear_extract (render acts) ex)) f =
        some { written := [], capacity := none }) := by
  have hcap : ∀ f s, ExportMap.getSink ex f = some s → s.capacity = none := by
    intro f s hs
    obtain ⟨g, hg⟩ := ExportMap.getSink_mem ex f s hs
    rw [show s = (g, s).2 from rfl, hsinks (g, s) hg]
  have h := go_render_ok acts [] [] [] ex hwf (by intro p hp; simp at hp)
    (fun i => rfl) hcap
  have hmain : ∀ f, ExportMap.containsKey ex f = true →
      ExportMap.getSink (exportOf (linear_extract (render acts) ex)) f =
        some { written := writtenContent acts f, capacity := none } := by
    intro f hf
    rw [linear_extract, exportOf_addOps, h.2 f]
    have hsome : (ExportMap.getSink ex f).isSome := by
      rw [← ExportMap.containsKey_iff_isSome]; exact hf
    obtain ⟨s, hs⟩ := Option.isSome_iff_exists.mp hsome
    obtain ⟨g, hg⟩ := ExportMap.getSink_mem ex f s hs
    have hsev : s = Sink.mk [] none := by
      rw [show s = (g, s).2 from rfl, hsinks (g, s) hg]
    rw [hs, hsev]
    simp [writtenContent]
  refine ⟨by rw [linear_extract, outcomeOf_addOps]; exact h.1, hmain, ?_⟩
  intro f hf hnf
  rw [hmain f hf, writtenContent,
    delivered_eq_nil_of_not_started acts [] f hnf (by intro p hp; simp at hp)]

/-- Every source operation the extractor loop performs is a read. -/
theorem go_ops_all_read : ∀ (src : List StreamElem) (reg : Registry) (ex : ExportMap),
    (opsOf (linearExtractGo src reg ex)).all SourceOp.isRead = true := by
  intro src reg ex
  induction src, reg, ex using linearExtractGo.induct <;>
    simp_all [linearExtractGo, opsOf, addOps, SourceOp.isRead]

/-- A sink write can only fail with `sinkError`. -/
theorem Sink.write_error_eq (s : Sink) (bs : List Nat) (e : Error)
    (h : s.write bs = .error e) : e = .sinkError := by
  rw [Sink.write] at h
  cases hcap : s.capacity with
  | none => simp [hcap] at h
  | some c =>
    simp only [hcap] at h
    by_cases hlen : bs.length ≤ c
    · rw [if_pos hlen] at h
      exact absurd h (by simp)
    · rw [if_neg hlen] at h
      injection h with h2
      exact h2.symm

/-- The registry invariant along a fully consumed stream prefix: starting
from a registry whose entries all point at export keys, every entry of the
final registry points at an export key for an id that is an open file of the
consumed prefix. -/
theorem c8_aux : ∀ (src : List StreamElem) (reg : Registry) (ex : ExportMap),
    (∀ i f, Registry.find reg i = some f → ExportMap.containsKey ex f = true) →
    outcomeOf (linearExtractGo src reg ex) = .error .truncatedStream →
    ∀ i f, Registry.find (registryOf (linearExtractGo src reg ex)) i = some f →
      ExportMap.containsKey ex f = true ∧
      openGiven ((Registry.find reg i).isSome) src i = true := by
  intro src reg ex
  induction src, reg, ex using linearExtractGo.induct with
  | case1 reg ex =>
    intro hinv _ i f hfr
    rw [go_nil] at hfr
    simp only [registryOf] at hfr
    exact ⟨hinv i f hfr, by rw [openGiven, hfr]; rfl⟩
  | case2 v tail reg ex =>
    intro _ hout _ _ _
    rw [go_byte] at hout
    exact absurd hout (by simp [outcomeOf])
  | case3 filename id rest reg ex hc ih =>
    intro hinv hout i f hfr
    rw [go_fileStart, if_pos hc, outcomeOf_addOps] at hout
    rw [go_fileStart, if_pos hc, registryOf_addOps] at hfr
    have hinv' : ∀ i f, Registry.find (Registry.insert reg id filename) i = some f →
        ExportMap.containsKey ex f = true := by
      intro j g hg
      by_cases hj : j = id
      · subst hj
        rw [Registry.find_insert_self] at hg
        rw [← Option.some_inj.mp hg]
        exact hc
      · rw [Registry.find_insert_ne reg id j filename hj] at hg
        exact hinv j g hg
    obtain ⟨h1, h2⟩ := ih hinv' hout i f hfr
    refine ⟨h1, ?_⟩
    rw [openGiven]
    by_cases hj : id = i
    · subst hj
      rw [if_pos (by simp)]
      exact openGiven_mono _ _ _ true (by simp) h2
    · rw [if_neg (by simp [hj])]
      rw [Registry.find_insert_ne reg id i filename (fun hh => hj hh.symm)] at h2
      exact h2
  | case4 filename id rest reg ex hc ih =>
    intro hinv hout i f hfr
    rw [go_fileStart, if_neg hc, outcomeOf_addOps] at hout
    rw [go_fileStart, if_neg hc, registryOf_addOps] at hfr
    obtain ⟨h1, h2⟩ := ih hinv hout i f hfr
    refine ⟨h1, ?_⟩
    rw [openGiven]
    by_cases hj : id = i
    · subst hj
      rw [if_pos (by simp)]
      exact openGiven_mono _ _ _ true (by simp) h2
    · rw [if_neg (by simp [hj])]
      exact h2
  | case5 id rest reg ex ih =>
    intro hinv hout i f hfr
    rw [go_endOfFile, outcomeOf_addOps] at hout
    rw [go_endOfFile, registryOf_addOps] at hfr
    have hinv' : ∀ i f, Registry.find (Registry.remove reg id) i = some f →
        ExportMap.containsKey ex f = true := by
      intro j g hg
      by_cases hj : j = id
      · subst hj
        rw [Registry.find_remove_self] at hg
        exact absurd hg (by simp)
      · rw [Registry.find_remove_ne reg id j hj] at hg
        exact hinv j g hg
    obtain ⟨h1, h2⟩ := ih hinv' hout i f hfr
    refine ⟨h1, ?_⟩
    rw [openGiven]
    by_cases hj : id = i
    · subst hj
      rw [if_pos (by simp)]
      rw [Registry.find_remove_self] at h2
      exact h2
    · rw [if_neg (by simp [hj])]
      rw [Registry.find_remove_ne reg id i (fun hh => hj hh.symm)] at h2
      exact h2
  | case6 id length rest reg ex fname hfind sink hgs sink' hw ih =>
    intro hinv hout i f hfr
    rw [linearExtractGo] at hout hfr
    simp only [hfind, hgs, hw, outcomeOf_addOps, registryOf_addOps] at hout hfr
    have hinv' : ∀ i f, Registry.find reg i = some f →
        ExportMap.containsKey (ExportMap.updateSink ex fname sink') f = true := by
      intro j g hg
      rw [ExportMap.containsKey_updateSink]
      exact hinv j g hg
    obtain ⟨h1, h2⟩ := ih hinv' hout i f hfr
    rw [ExportMap.containsKey_updateSink] at h1
    refine ⟨h1, ?_⟩
    rw [openGiven_contentHeader, ← payloadSplit_append_eq length rest,
      openGiven_append_bytes]
    exact h2
  | case7 id length rest reg ex fname hfind sink hgs e hw =>
    intro _ hout _ _ _
    rw [linearExtractGo] at hout
    simp only [hfind, hgs, hw, outcomeOf] at hout
    have := Sink.write_error_eq sink _ e hw
    subst this
    exact absurd (Except.error.inj hout) (by simp)
  | case8 id length rest reg ex fname hfind hgs ih =>
    intro hinv hout i f hfr
    rw [linearExtractGo] at hout hfr
    simp only [hfind, hgs, outcomeOf_addOps, registryOf_addOps] at hout hfr
    obtain ⟨h1, h2⟩ := ih hinv hout i f hfr
    refine ⟨h1, ?_⟩
    rw [openGiven_contentHeader, ← payloadSplit_append_eq length rest,
      openGiven_append_bytes]
    exact h2
  | case9 id length rest reg ex hfind ih =>
    intro hinv hout i f hfr
    rw [linearExtractGo] at hout hfr
    simp only [hfind, outcomeOf_addOps, registryOf_addOps] at hout hfr
    obtain ⟨h1, h2⟩ := ih hinv hout i f hfr
    refine ⟨h1, ?_⟩
    rw [openGiven_contentHeader, ← payloadSplit_append_eq length rest,
      openGiven_append_bytes]
    exact h2
  | case10 tail reg ex =>
    intro _ hout _ _ _
    rw [go_endOfArchive] at hout
    exact absurd hout (by simp [outcomeOf])

/-- C8 — Throughout every run of `linear_extract`, the id-to-filename
registry satisfies the invariant that an entry is inserted on `FileStart`
only when its filename is a key of the export map, and the entry for an id
is removed when that id's `EndOfFile` is handled; hence every id in the
registry maps to a requested filename of a currently-open file.  The first
conjunct states the invariant at the end of every fully consumed prefix
(starting, as the code does, from the empty registry); the other two state
the insertion guard and the removal. -/
theorem c8_registry_invariant :
    (∀ (src : List StreamElem) (ex : ExportMap),
      outcomeOf (linearExtractGo src [] ex) = .error .truncatedStream →
      ∀ i f, Registry.find (registryOf (linearExtractGo src [] ex)) i = some f →
        ExportMap.containsKey ex f = true ∧ openAfter src i = true) ∧
    (∀ (f : String) (id : ArchiveFileID) (rest : List StreamElem)
       (reg : Registry) (ex : ExportMap),
      linearExtractGo (.header (.FileStart f id) :: rest) reg ex =
        addOps [.read 1] (linearExtractGo rest
          (if ExportMap.containsKey ex f then Registry.insert reg id f else reg) ex)) ∧
    (∀ (id : ArchiveFileID) (rest : List StreamElem) (reg : Registry) (ex : ExportMap),
      linearExtractGo (.header (.EndOfFile id) :: rest) reg ex =
        addOps [.read 1] (linearExtractGo rest (Registry.remove reg id) ex)) := by
  refine ⟨?_, go_fileStart, go_endOfFile⟩
  intro src ex hout i f hfr
  have h := c8_aux src [] ex
    (by intro j g hg; exact absurd hg (by simp [Registry.find])) hout i f hfr
  exact ⟨h.1, h.2⟩

/-- C7 — For every call to `linear_extract`, exactly one seek is performed —
to offset zero at the start of the call — and every later source operation is
a forward read; the source is never repositioned again. -/
theorem c7_single_seek (src : List StreamElem) (ex : ExportMap) :
    (opsOf (linear_extract src ex)).head? = some (.seek 0) ∧
    (opsOf (linear_extract src ex)).tail.all SourceOp.isRead = true ∧
    (opsOf (linear_extract src ex)).countP (fun op => !SourceOp.isRead op) = 1 := by
  have hall := go_ops_all_read src [] ex
  have h0 : (opsOf (linearExtractGo src [] ex)).countP
      (fun op => !SourceOp.isRead op) = 0 := by
    rw [List.countP_eq_zero]
    intro a ha
    have := List.all_eq_true.mp hall a ha
    simp_all
  refine ⟨rfl, ?_, ?_⟩
  · simpa [linear_extract, opsOf, addOps] using hall
  · rw [show opsOf (linear_extract src ex) =
        .seek 0 :: opsOf (linearExtractGo src [] ex) from rfl]
    rw [List.countP_cons, h0]
    rfl

/-- C3 — For every chunk, `StreamWriter::write` either appends the entire
chunk as exactly one new `FileContent` block whose declared length equals
the chunk's length and returns `Ok` with the full chunk length, or returns
an error with nothing from that call appended; partial acceptance never
occurs. -/
theorem c3_write_all_or_nothing (sw : StreamWriter) (buf : List Nat) :
    (StreamWriter.write sw buf =
      (.ok buf.length,
        { sw with archive := { sw.archive with
            blocks := sw.archive.blocks ++
              .header (.FileContent sw.file_id buf.length) :: buf.map .byte } })) ∨
    (∃ e, StreamWriter.write sw buf = (.error e, sw)) := by
  rw [StreamWriter.write, ArchiveWriter.append_file_content]
  by_cases h : sw.archive.openIds.contains sw.file_id
  · rw [if_pos h]
    exact Or.inl rfl
  · rw [if_neg h]
    exact Or.inr ⟨.lowerLayerError, rfl⟩

/-- C9 — For every `StreamWriter`, `flush` delegates exactly to the
underlying archive's flush and changes nothing else: it does not close the
adapter's file, does not emit any block, and leaves the adapter's file id
open for further writes. -/
theorem c9_flush_delegates (sw : StreamWriter) :
    StreamWriter.flush sw =
      ((ArchiveWriter.flush sw.archive).1,
        { sw with archive := (ArchiveWriter.flush sw.archive).2 }) ∧
    (StreamWriter.flush sw).2.archive.blocks = sw.archive.blocks ∧
    (StreamWriter.flush sw).2.archive.openIds = sw.archive.openIds ∧
    (StreamWriter.flush sw).2.file_id = sw.file_id := by
  exact ⟨rfl, rfl, rfl, rfl⟩

/-- C10 — For every `StreamWriter` whose file id is open, calling `write`
with an empty chunk still invokes the archive's append-content primitive
with length 0 — emitting one zero-length `FileContent` block — and returns
`Ok(0)`; zero-length chunks are not suppressed by the adapter. -/
theorem c10_empty_chunk (sw : StreamWriter)
    (hopen : sw.archive.openIds.contains sw.file_id = true) :
    StreamWriter.write sw [] =
      (.ok 0, { sw with archive := { sw.archive with
          blocks := sw.archive.blocks ++ [.header (.FileContent sw.file_id 0)] } }) := by
  rw [StreamWriter.write, ArchiveWriter.append_file_content, if_pos hopen]
  rfl

/-- C4 — For every `FileContent` block handled during `linear_extract`,
exactly `length` payload bytes are consumed from the source before the next
block is decoded (the continuation resumes at `tail`, and the payload read
is of size `length = payload.length`): if the block's id is in the registry
and its filename is a key of the export map the bytes are copied verbatim
into that sink, otherwise they are discarded without being buffered. -/
theorem c4_content_block (reg : Registry) (ex : ExportMap) (id : ArchiveFileID)
    (payload : List Nat) (tail : List StreamElem)
    (hcap : ∀ p ∈ ex, p.2.capacity = none) :
    linearExtractGo
        (.header (.FileContent id payload.length) :: (payload.map .byte ++ tail))
        reg ex =
      addOps [.read 1, .read payload.length]
        (linearExtractGo tail reg (deliverBlock reg ex id payload)) := by
  rw [go_fileContent, deliverBlock]
  cases hfind : Registry.find reg id with
  | none => rfl
  | some fname =>
    cases hgs : ExportMap.getSink ex fname with
    | none => simp only [hgs]
    | some s =>
      have hc : s.capacity = none := by
        obtain ⟨g, hg⟩ := ExportMap.getSink_mem ex fname s hgs
        exact hcap (g, s) hg
      simp only [hgs]
      rw [show s.write payload =
            .ok { written := s.written ++ payload, capacity := s.capacity } by
          rw [Sink.write, hc]]

/-- C5 — For every stream, a `FileContent` or `EndOfFile` block referencing
an id with no currently-open matching `FileStart` never causes
`linear_extract` to return an error by itself: the content is read and
discarded, the close is ignored, and the loop continues at the next block in
the same state, so extraction of every other file in the same run is
unaffected. -/
theorem c5_dangling_reference (reg : Registry) (ex : ExportMap)
    (id : ArchiveFileID) (payload : List Nat) (tail : List StreamElem)
    (h : Registry.find reg id = none) :
    (linearExtractGo (.header (.EndOfFile id) :: tail) reg ex =
      addOps [.read 1] (linearExtractGo tail reg ex)) ∧
    (linearExtractGo
        (.header (.FileContent id payload.length) :: (payload.map .byte ++ tail))
        reg ex =
      addOps [.read 1, .read payload.length] (linearExtractGo tail reg ex)) := by
  constructor
  · rw [go_endOfFile, Registry.remove_of_find_none reg id h]
  · rw [go_fileContent, h]

theorem addOps_nil (r : ExtractResult) : addOps [] r = r := rfl

theorem addOps_addOps (a b : List SourceOp) (r : ExtractResult) :
    addOps a (addOps b r) = addOps (a ++ b) r := by
  simp [addOps]

/-- Running the loop over a rendered, sentinel-free prefix followed by more
stream: if the prefix alone runs off the end of input, the combined run
continues into the extra stream from the prefix's final state; if the prefix
alone aborts with another error, the combined run is that same abort. -/
theorem go_render_truncated_append (acts : List WAction) :
    ∀ (post : List StreamElem) (reg : Registry) (ex : ExportMap),
    noFinish acts = true →
    outcomeOf (linearExtractGo (render acts) reg ex) = .error .truncatedStream →
    linearExtractGo (render acts ++ post) reg ex =
      addOps (opsOf (linearExtractGo (render acts) reg ex))
        (linearExtractGo post
          (registryOf (linearExtractGo (render acts) reg ex))
          (exportOf (linearExtractGo (render acts) reg ex))) := by
  induction acts with
  | nil =>
    intro post reg ex _ _
    simp [render, go_nil, addOps, opsOf, registryOf, exportOf]
  | cons a rest ih =>
    intro post reg ex hnf hout
    cases a with
    | finish => exact absurd hnf (by simp [noFinish])
    | start g i =>
      have hnf' : noFinish rest = true := by simpa [noFinish] using hnf
      simp only [render, List.cons_append] at hout ⊢
      rw [go_fileStart, outcomeOf_addOps] at hout
      simp only [go_fileStart, opsOf_addOps, registryOf_addOps, exportOf_addOps]
      rw [ih post _ ex hnf' hout, addOps_addOps]
    | close i =>
      have hnf' : noFinish rest = true := by simpa [noFinish] using hnf
      simp only [render, List.cons_append] at hout ⊢
      rw [go_endOfFile, outcomeOf_addOps] at hout
      simp only [go_endOfFile, opsOf_addOps, registryOf_addOps, exportOf_addOps]
      rw [ih post _ ex hnf' hout, addOps_addOps]
    | content i bs =>
      have hnf' : noFinish rest = true := by simpa [noFinish] using hnf
      simp only [render, List.cons_append, List.append_assoc] at hout ⊢
      rw [go_fileContent] at hout
      rw [go_fileContent, go_fileContent]
      cases hfind : Registry.find reg i with
      | none =>
        simp only [hfind] at hout ⊢
        rw [outcomeOf_addOps] at hout
        simp only [opsOf_addOps, registryOf_addOps, exportOf_addOps]
        rw [ih post _ ex hnf' hout, addOps_addOps]
      | some fname =>
        simp only [hfind] at hout ⊢
        cases hgs : ExportMap.getSink ex fname with
        | none =>
          simp only [hgs] at hout ⊢
          rw [outcomeOf_addOps] at hout
          simp only [opsOf_addOps, registryOf_addOps, exportOf_addOps]
          rw [ih post _ ex hnf' hout, addOps_addOps]
        | some s =>
          simp only [hgs] at hout ⊢
          cases hw : s.write bs with
          | ok s' =>
            simp only [hw] at hout ⊢
            rw [outcomeOf_addOps] at hout
            simp only [opsOf_addOps, registryOf_addOps, exportOf_addOps]
            rw [ih post _ _ hnf' hout, addOps_addOps]
          | error e =>
            have he : e = .sinkError := Sink.write_error_eq s bs e hw
            subst he
            simp only [hw, outcomeOf] at hout
            exact absurd (Except.error.inj hout) (by simp)

/-- C6 — For every run of `linear_extract` in which a decode error or a sink
error occurs, the call aborts at the failing block and returns that single
error; all bytes already delivered to sinks before the failing block are
kept unchanged — the export map returned is exactly the pre-failure one, and
no rollback of any sink's partial content is performed.  The well-formed,
still-unterminated prefix is described by writer actions; the first part
places a malformed byte where a header is expected (decode or lower-layer
failure), the second a content block whose payload exceeds its sink's
remaining capacity (sink failure). -/
theorem c6_abort_no_rollback (acts : List WAction) (ex : ExportMap)
    (hnf : noFinish acts = true)
    (hout : outcomeOf (linearExtractGo (render acts) [] ex) = .error .truncatedStream) :
    (∀ (b : Nat) (tail : List StreamElem),
      linear_extract (render acts ++ .byte b :: tail) ex =
        (.error .decodeError,
         exportOf (linearExtractGo (render acts) [] ex),
         registryOf (linearExtractGo (render acts) [] ex),
         .seek 0 :: (opsOf (linearExtractGo (render acts) [] ex) ++ [.read 1]))) ∧
    (∀ (i : ArchiveFileID) (fname : String) (s : Sink) (bs : List Nat) (c : Nat)
       (tail : List StreamElem),
      Registry.find (registryOf (linearExtractGo (render acts) [] ex)) i = some fname →
      ExportMap.getSink (exportOf (linearExtractGo (render acts) [] ex)) fname = some s →
      s.capacity = some c → c < bs.length →
      linear_extract
          (render acts ++ .header (.FileContent i bs.length) :: (bs.map .byte ++ tail))
          ex =
        (.error .sinkError,
         exportOf (linearExtractGo (render acts) [] ex),
         registryOf (linearExtractGo (render acts) [] ex),
         .seek 0 :: (opsOf (linearExtractGo (render acts) [] ex) ++
           [.read 1, .read bs.length]))) := by
  constructor
  · intro b tail
    rw [linear_extract, go_render_truncated_append acts _ [] ex hnf hout, go_byte]
    rfl
  · intro i fname s bs c tail hfind hgs hcap hlen
    rw [linear_extract, go_render_truncated_append acts _ [] ex hnf hout,
      go_fileContent]
    simp only [hfind, hgs]
    rw [show s.write bs = .error .sinkError by
      rw [Sink.write, hcap]
      simp only []
      rw [if_neg (by omega)]]
    rfl

/-- Witness for C1 at the concrete interleaved archive `wActsA`. -/
theorem c1_witness :
    wfActions wActsA = true ∧
    outcomeOf (linear_extract (render wActsA) exMapFull) = .ok () ∧
    ExportMap.getSink (exportOf (linear_extract (render wActsA) exMapFull)) "f1" =
      some { written := [1, 2, 3], capacity := none } ∧
    ExportMap.getSink (exportOf (linear_extract (render wActsA) exMapFull)) "f2" =
      some { written := [10, 20], capacity := none } := by
  have h := c1_full_export_roundtrip wActsA exMapFull (by decide) (by decide) (by decide)
  refine ⟨by decide, h.1, ?_, ?_⟩
  · rw [h.2 "f1" (by decide)]; decide
  · rw [h.2 "f2" (by decide)]; decide

/-- Witness for C2: a strict subset of a three-file archive plus one absent
filename. -/
theorem c2_witness :
    wfActions wActsB = true ∧
    outcomeOf (linear_extract (render wActsB) exMapSub) = .ok () ∧
    ExportMap.getSink (exportOf (linear_extract (render wActsB) exMapSub)) "f1" =
      some { written := [1, 2], capacity := none } ∧
    ExportMap.getSink (exportOf (linear_extract (render wActsB) exMapSub)) "ghost" =
      some { written := [], capacity := none } := by
  have h := c2_subset_export wActsB exMapSub (by decide) (by decide)
  refine ⟨by decide, h.1, ?_, ?_⟩
  · rw [h.2.1 "f1" (by decide)]; decide
  · exact h.2.2 "ghost" (by decide) (by decide)

/-- Witness for C4 at a concrete content block. -/
theorem c4_witness :
    (∀ p ∈ exMapA, p.2.capacity = none) ∧
    linearExtractGo
        (.header (.FileContent 1 ([4, 5] : List Nat).length) ::
          (([4, 5] : List Nat).map .byte ++ [.header .EndOfArchiveData]))
        [(1, "a")] exMapA =
      addOps [.read 1, .read ([4, 5] : List Nat).length]
        (linearExtractGo [.header .EndOfArchiveData] [(1, "a")]
          (deliverBlock [(1, "a")] exMapA 1 [4, 5])) :=
  ⟨by decide,
   c4_content_block [(1, "a")] exMapA 1 [4, 5] [.header .EndOfArchiveData] (by decide)⟩

/-- Witness for C5 at a concrete dangling close and dangling content block. -/
theorem c5_witness :
    Registry.find [(2, "b")] 1 = none ∧
    (linearExtractGo (.header (.EndOfFile 1) :: [.header .EndOfArchiveData])
        [(2, "b")] exMapA =
      addOps [.read 1] (linearExtractGo [.header .EndOfArchiveData] [(2, "b")] exMapA)) ∧
    (linearExtractGo
        (.header (.FileContent 1 ([9] : List Nat).length) ::
          (([9] : List Nat).map .byte ++ [.header .EndOfArchiveData]))
        [(2, "b")] exMapA =
      addOps [.read 1, .read ([9] : List Nat).length]
        (linearExtractGo [.header .EndOfArchiveData] [(2, "b")] exMapA)) := by
  have h := c5_dangling_reference [(2, "b")] exMapA 1 [9] [.header .EndOfArchiveData]
    (by decide)
  exact ⟨by decide, h.1, h.2⟩

/-- Witness for C6: after a one-file prefix that fills the sink's capacity,
a stray byte aborts with a decode error and an oversized content block
aborts with a sink error, both keeping the already-written byte. -/
theorem c6_witness :
    noFinish wActsC = true ∧
    outcomeOf (linearExtractGo (render wActsC) [] exMapCap) = .error .truncatedStream ∧
    (linear_extract (render wActsC ++ .byte 9 :: []) exMapCap =
      (.error .decodeError, [("a", { written := [5], capacity := some 0 })], [(1, "a")],
        [.seek 0, .read 1, .read 1, .read 1, .read 1])) ∧
    (linear_extract
        (render wActsC ++
          .header (.FileContent 1 ([6] : List Nat).length) ::
            (([6] : List Nat).map .byte ++ [])) exMapCap =
      (.error .sinkError, [("a", { written := [5], capacity := some 0 })], [(1, "a")],
        [.seek 0, .read 1, .read 1, .read 1, .read 1, .read 1])) := by
  have hrun : linearExtractGo (render wActsC) [] exMapCap =
      (.error .truncatedStream, [("a", { written := [5], capacity := some 0 })],
        [(1, "a")], [.read 1, .read 1, .read 1]) := by
    simp [linearExtractGo, render, wActsC, exMapCap, ExportMap.containsKey,
      ExportMap.getSink, ExportMap.updateSink, Registry.insert, Registry.remove,
      Registry.find, Sink.write, payloadSplit, addOps]
  have h := c6_abort_no_rollback wActsC exMapCap (by decide) (by rw [hrun]; rfl)
  refine ⟨by decide, by rw [hrun]; rfl, ?_, ?_⟩
  · have ha := h.1 9 []
    rw [hrun] at ha
    exact ha
  · have hb := h.2 1 "a" { written := [5], capacity := some 0 } [6] 0 []
      (by rw [hrun]; rfl) (by rw [hrun]; rfl) rfl (by decide)
    rw [hrun] at hb
    exact hb

/-- Witness for C8 at a stream prefix that opens one requested file. -/
theorem c8_witness :
    ExportMap.containsKey exMapA "a" = true ∧
    openAfter [.header (.FileStart "a" 1)] 1 = true := by
  have hrun : linearExtractGo [.header (.FileStart "a" 1)] [] exMapA =
      (.error .truncatedStream, exMapA, [(1, "a")], [.read 1]) := by
    simp [linearExtractGo, exMapA, ExportMap.containsKey, Registry.insert,
      Registry.remove, addOps]
  exact c8_registry_invariant.1 [.header (.FileStart "a" 1)] exMapA
    (by rw [hrun]; rfl) 1 "a" (by rw [hrun]; rfl)

/-- Witness for C10 at a concrete adapter with its file open. -/
theorem c10_witness :
    swEx.archive.openIds.contains swEx.file_id = true ∧
    StreamWriter.write swEx [] =
      (.ok 0,
       { archive := { blocks := [.header (.FileContent 7 0)], openIds := [7],
                      flushCount := 0 },
         file_id := 7 }) := by
  have h := c10_empty_chunk swEx (by decide)
  exact ⟨by decide, by rw [h]; rfl⟩

end MLA
